import Mathlib

/-!
# LotkaVolterraCpp: the hard-coded four-species recurrence kernel

A shallow embedding of `Demo/LotkaVolterraCpp/Main.cpp`.

* A `double` is read as an exact rational number (`ℚ`); the decimal literals of
  the source are the rationals they denote.
* The buffer `double* x` is a list of slots together with an offset into it;
  `x[k]` is slot `offset + k`, and every access is checked against the length
  of the list, so an access outside the buffer makes the run fail (`none`).
* A run records which slots it read and wrote, and how many times the loop
  body was executed.
* Where overflow and NaN matter, the kernel is embedded a second time, in
  binary64 arithmetic (namespace `Binary64`).
-/

namespace LotkaVolterraCpp

/-- One memory access of the kernel: the slot index that was read or written. -/
inductive Access where
  | read (i : Nat)
  | write (i : Nat)
  deriving DecidableEq, Repr

/-- The state of a run: the buffer, the accesses made so far (oldest first) and
the number of loop iterations executed so far. -/
structure Run where
  mem : List ℚ
  trace : List Access
  iters : Nat
  deriving DecidableEq

/-- A run that has just been entered with buffer `buf`. -/
def Run.start (buf : List ℚ) : Run := ⟨buf, [], 0⟩

/-- Checked read of slot `i`. -/
def Run.load (r : Run) (i : Nat) : Option (ℚ × Run) :=
  if h : i < r.mem.length then
    some (r.mem[i], { r with trace := r.trace ++ [Access.read i] })
  else none

/-- Checked write of `v` to slot `i`. -/
def Run.store (r : Run) (i : Nat) (v : ℚ) : Option Run :=
  if i < r.mem.length then
    some { r with mem := r.mem.set i v, trace := r.trace ++ [Access.write i] }
  else none

/-- The body of the `for` loop of `SimulateNativeHardCoded` (lines 13-49), with
the pointer `x` given as an offset into the buffer. Returns the advanced
pointer and the run after the four writes. -/
def loopBody (x : Nat) (r : Run) : Option (Nat × Run) := do
  let (x0, r) ← r.load (x + 0)
  let (x1, r) ← r.load (x + 1)
  let (x2, r) ← r.load (x + 2)
  let (x3, r) ← r.load (x + 3)
  let dx0_dt : ℚ := 1.0 - 1 * x0 - 1.09 * x1 - 1.52 * x2 - 0 * x3
  let dx1_dt : ℚ := 1.0 - 0 * x0 - 1 * x1 - 0.44 * x2 - 1.36 * x3
  let dx2_dt : ℚ := 1.0 - 2.33 * x0 - 0 * x1 - 1 * x2 - 0.47 * x3
  let dx3_dt : ℚ := 1.0 - 1.21 * x0 - 0.51 * x1 - 0.35 * x2 - 1 * x3
  let dx0_dt := dx0_dt * (0.001 * 1 * x0)
  let dx1_dt := dx1_dt * (0.001 * 0.72 * x1)
  let dx2_dt := dx2_dt * (0.001 * 1.53 * x2)
  let dx3_dt := dx3_dt * (0.001 * 1.27 * x3)
  let x := x + 4
  let r ← r.store (x + 0) (x0 + dx0_dt)
  let r ← r.store (x + 1) (x1 + dx1_dt)
  let r ← r.store (x + 2) (x2 + dx2_dt)
  let r ← r.store (x + 3) (x3 + dx3_dt)
  pure (x, r)

/-- The loop `for (int n = 1; n < N; ++n)` from its current counter `n` and
pointer `x`. -/
def simLoop (N n : Int) (x : Nat) (r : Run) : Option Run :=
  if n < N then
    match loopBody x r with
    | none => none
    | some (x', r') => simLoop N (n + 1) x' { r' with iters := r'.iters + 1 }
  else some r
termination_by (N - n).toNat
decreasing_by omega

/-- The function `void SimulateNativeHardCoded(int N, double* x)`, called with
`x` pointing at slot 0 of `buf`. The counter `n` never exceeds `N`, so the
`int` increment cannot overflow and `N`, `n` are taken as integers. -/
def SimulateNativeHardCoded (N : Int) (buf : List ℚ) : Option Run :=
  simLoop N 1 0 (Run.start buf)

/-- A State vector: the four species values of one time step. -/
abbrev State := Fin 4 → ℚ

/-- The four slots of `b` starting at slot `x`, read as a State (slots beyond
the end of the list read as 0). -/
def readState (b : List ℚ) (x : Nat) : State := fun i => b.getD (x + i.val) 0

/-- State `n` of a trajectory buffer: slots `4n .. 4n+3`. -/
def stateAt (b : List ℚ) (n : Nat) : State := readState b (4 * n)

/-- The coefficient matrix `A` of the spec (section 4.1). -/
def A : Fin 4 → Fin 4 → ℚ :=
  ![![1, 1.09, 1.52, 0],
    ![0, 1, 0.44, 1.36],
    ![2.33, 0, 1, 0.47],
    ![1.21, 0.51, 0.35, 1]]

/-- The scale vector of the spec (section 4.1). -/
def scale : Fin 4 → ℚ := ![0.001 * 1, 0.001 * 0.72, 0.001 * 1.53, 0.001 * 1.27]

/-- The spec's `growth_i(x) = 1.0 - Σ_j A[i][j] * x[j]`. -/
def growth (i : Fin 4) (x : State) : ℚ := 1.0 - ∑ j : Fin 4, A i j * x j

/-- The spec's `delta_i(x) = growth_i(x) * scale_i * x[i]`. -/
def delta (i : Fin 4) (x : State) : ℚ := growth i x * scale i * x i

/-- The spec's update rule: `buffer[n][i] = x[i] + delta_i(x)`. -/
def updateRule (x : State) : State := fun i => x i + delta i x

/-! ## Reference functions used to state and prove the properties -/

/-- Writing the State `s` into the four slots of `b` starting at `x`. -/
def write4 (b : List ℚ) (x : Nat) (s : State) : List ℚ :=
  (((b.set (x + 0) (s 0)).set (x + 1) (s 1)).set (x + 2) (s 2)).set (x + 3) (s 3)

/-- The accesses of one loop iteration entered with pointer `x`. -/
def bodyAccesses (x : Nat) : List Access :=
  [Access.read (x + 0), Access.read (x + 1), Access.read (x + 2), Access.read (x + 3),
   Access.write (x + 4 + 0), Access.write (x + 4 + 1), Access.write (x + 4 + 2),
   Access.write (x + 4 + 3)]

/-- The buffer after `k` loop iterations entered with pointer `x`. -/
def fill : Nat → Nat → List ℚ → List ℚ
  | 0, _, b => b
  | k + 1, x, b => fill k (x + 4) (write4 b (x + 4) (updateRule (readState b x)))

/-- The accesses of `k` loop iterations entered with pointer `x`. -/
def accesses : Nat → Nat → List Access
  | 0, _ => []
  | k + 1, x => bodyAccesses x ++ accesses k (x + 4)

/-- The harness loop of `main` (lines 69-70), `for (int i = 0; i < reps; ++i)
SimulateNativeHardCoded(N, data);`, from its current counter `i`; `main` has
`reps = 100` and `N = 100000`. Returns the buffer after the last call. -/
def repeatLoop (reps i : Int) (N : Int) (data : List ℚ) : Option (List ℚ) :=
  if i < reps then
    match SimulateNativeHardCoded N data with
    | none => none
    | some r => repeatLoop reps (i + 1) N r.mem
  else some data
termination_by (reps - i).toNat
decreasing_by omega

/-- The initial State that `main` stores in slots 0..3 (lines 60-63). -/
def initialState : State := ![0.2, 0.4586, 0.1307, 0.3557]

/-- The slot index of an access. -/
def Access.index : Access → Nat
  | Access.read i => i
  | Access.write i => i

/-- The in-place sequential variant of the update rule, one species: species `i`
of the vector `x` is overwritten with its updated value, computed from the
current contents of `x`. -/
def updateInPlace (i : Fin 4) (x : State) : State := Function.update x i (updateRule x i)

/-- The in-place sequential variant of the update rule: species 0, 1, 2, 3 are
updated one after the other in the same vector, so that the growth term of
species `i` reads the already-updated species `j < i` and the old species
`j ≥ i`. -/
def inPlaceSequential (x : State) : State :=
  updateInPlace 3 (updateInPlace 2 (updateInPlace 1 (updateInPlace 0 x)))

/-- A twelve-slot buffer (three States) holding the initial State of `main`,
the other slots zero. -/
def sampleBuf : List ℚ := [0.2, 0.4586, 0.1307, 0.3557, 0, 0, 0, 0, 0, 0, 0, 0]

/-- A twelve-slot buffer with the same State 0 as `sampleBuf` and other values
in the remaining slots. -/
def sampleBufOther : List ℚ := [0.2, 0.4586, 0.1307, 0.3557, 7, -3, 0.5, 2, 1, 1, 1, 1]

/-- A twenty-slot buffer (five States) holding the initial State of `main`. -/
def sampleBuf5 : List ℚ := [0.2, 0.4586, 0.1307, 0.3557] ++ List.replicate 16 0

/-- The buffer `data` that `main` allocates and initialises (lines 58-63), for
a step count `N`: `N * 4` slots, the first four holding the initial State, the
others (left uninitialised by the source) taken as zero. -/
def mainData (N : Nat) : List ℚ :=
  [0.2, 0.4586, 0.1307, 0.3557] ++ List.replicate (N * 4 - 4) 0

/-- A twelve-slot buffer (three States) whose State 0 has species 1 extinct. -/
def sampleBufExtinct : List ℚ := [0.2, 0, 0.1307, 0.3557, 5, 5, 5, 5, 5, 5, 5, 5]

/-! ## The kernel in binary64 arithmetic

A second embedding of the same source in which a `double` is a binary64 value:
every operation rounds its exact result to nearest (ties to even), overflows
to an infinity, and propagates infinities and NaN as IEEE 754 prescribes. The
two zeros are identified: they compare equal, and addition, subtraction and
multiplication give the same value, up to the sign of a zero, for either. -/

namespace Binary64

/-- A binary64 value: a finite number, an infinity with its sign, or NaN. -/
inductive Dbl where
  | fin (q : ℚ)
  | inf (negative : Bool)
  | nan
  deriving DecidableEq

/-- The power `2 ^ e` as a rational. -/
def pow2 (e : Int) : ℚ :=
  if 0 ≤ e then ((2 ^ e.toNat : Nat) : ℚ) else 1 / ((2 ^ (-e).toNat : Nat) : ℚ)

/-- The number of halvings that bring `n` below 2, at most `fuel`. -/
def log2Fuel : Nat → Nat → Nat
  | 0, _ => 0
  | fuel + 1, n => if n < 2 then 0 else log2Fuel fuel (n / 2) + 1

/-- The integer part of the base-2 logarithm of `n ≥ 1`. -/
def log2 (n : Nat) : Nat := log2Fuel n n

/-- The integer `e` with `2 ^ e ≤ q < 2 ^ (e + 1)`, for `q > 0`. -/
def ilog2 (q : ℚ) : Int :=
  let d : Int := (log2 q.num.natAbs : Int) - (log2 q.den : Int)
  if pow2 d ≤ q then d else d - 1

/-- Rounding to the nearest integer, ties to even. -/
def roundHalfEven (m : ℚ) : Int :=
  let f : Int := ⌊m⌋
  let d : ℚ := m - f
  if d < 1 / 2 then f else if 1 / 2 < d then f + 1 else if f % 2 = 0 then f else f + 1

/-- Rounding to 53 significant bits with exponent at least `-1022` (subnormal
numbers below it), the exponent being unbounded above. -/
def roundFinite (q : ℚ) : ℚ :=
  if q = 0 then 0 else
    let e : Int := max (ilog2 |q|) (-1022)
    let ulp : ℚ := pow2 (e - 52)
    (roundHalfEven (q / ulp) : ℚ) * ulp

/-- Rounding of an exact result to binary64: to nearest, ties to even, a result
of magnitude `2 ^ 1024` or more becoming an infinity. -/
def roundNearest (q : ℚ) : Dbl :=
  let r := roundFinite q
  if pow2 1024 ≤ r then Dbl.inf false
  else if r ≤ -pow2 1024 then Dbl.inf true
  else Dbl.fin r

/-- A decimal literal of the source: the binary64 value nearest to it. -/
def lit (q : ℚ) : Dbl := roundNearest q

/-- An `int` literal of the source converted to `double`. -/
def ofInt (z : Int) : Dbl := roundNearest z

/-- Negation. -/
def Dbl.neg : Dbl → Dbl
  | Dbl.fin q => Dbl.fin (-q)
  | Dbl.inf s => Dbl.inf (!s)
  | Dbl.nan => Dbl.nan

/-- Binary64 addition. -/
def Dbl.add : Dbl → Dbl → Dbl
  | Dbl.nan, _ => Dbl.nan
  | _, Dbl.nan => Dbl.nan
  | Dbl.inf s, Dbl.inf t => if s = t then Dbl.inf s else Dbl.nan
  | Dbl.inf s, Dbl.fin _ => Dbl.inf s
  | Dbl.fin _, Dbl.inf t => Dbl.inf t
  | Dbl.fin a, Dbl.fin b => roundNearest (a + b)

/-- Binary64 subtraction. -/
def Dbl.sub (a b : Dbl) : Dbl := a.add b.neg

/-- Binary64 multiplication. -/
def Dbl.mul : Dbl → Dbl → Dbl
  | Dbl.nan, _ => Dbl.nan
  | _, Dbl.nan => Dbl.nan
  | Dbl.inf s, Dbl.inf t => Dbl.inf (s != t)
  | Dbl.inf s, Dbl.fin b => if b = 0 then Dbl.nan else Dbl.inf (s != decide (b < 0))
  | Dbl.fin a, Dbl.inf t => if a = 0 then Dbl.nan else Dbl.inf (decide (a < 0) != t)
  | Dbl.fin a, Dbl.fin b => roundNearest (a * b)

/-- Checked read of slot `i`. -/
def load (b : List Dbl) (i : Nat) : Option Dbl := b[i]?

/-- Checked write of `v` to slot `i`. -/
def store (b : List Dbl) (i : Nat) (v : Dbl) : Option (List Dbl) :=
  if i < b.length then some (b.set i v) else none

/-- The body of the `for` loop of `SimulateNativeHardCoded` (lines 13-49) in
binary64 arithmetic, with the pointer `x` given as an offset into the buffer. -/
def loopBody (x : Nat) (b : List Dbl) : Option (Nat × List Dbl) := do
  let x0 ← load b (x + 0)
  let x1 ← load b (x + 1)
  let x2 ← load b (x + 2)
  let x3 ← load b (x + 3)
  let dx0_dt := ((((lit 1.0).sub ((ofInt 1).mul x0)).sub ((lit 1.09).mul x1)).sub
    ((lit 1.52).mul x2)).sub ((ofInt 0).mul x3)
  let dx1_dt := ((((lit 1.0).sub ((ofInt 0).mul x0)).sub ((ofInt 1).mul x1)).sub
    ((lit 0.44).mul x2)).sub ((lit 1.36).mul x3)
  let dx2_dt := ((((lit 1.0).sub ((lit 2.33).mul x0)).sub ((ofInt 0).mul x1)).sub
    ((ofInt 1).mul x2)).sub ((lit 0.47).mul x3)
  let dx3_dt := ((((lit 1.0).sub ((lit 1.21).mul x0)).sub ((lit 0.51).mul x1)).sub
    ((lit 0.35).mul x2)).sub ((ofInt 1).mul x3)
  let dx0_dt := dx0_dt.mul (((lit 0.001).mul (ofInt 1)).mul x0)
  let dx1_dt := dx1_dt.mul (((lit 0.001).mul (lit 0.72)).mul x1)
  let dx2_dt := dx2_dt.mul (((lit 0.001).mul (lit 1.53)).mul x2)
  let dx3_dt := dx3_dt.mul (((lit 0.001).mul (lit 1.27)).mul x3)
  let x := x + 4
  let b ← store b (x + 0) (x0.add dx0_dt)
  let b ← store b (x + 1) (x1.add dx1_dt)
  let b ← store b (x + 2) (x2.add dx2_dt)
  let b ← store b (x + 3) (x3.add dx3_dt)
  pure (x, b)

/-- The loop `for (int n = 1; n < N; ++n)` from its current counter `n` and
pointer `x`. -/
def simLoop (N n : Int) (x : Nat) (b : List Dbl) : Option (List Dbl) :=
  if n < N then
    match loopBody x b with
    | none => none
    | some (x', b') => simLoop N (n + 1) x' b'
  else some b
termination_by (N - n).toNat
decreasing_by omega

/-- The function `void SimulateNativeHardCoded(int N, double* x)` in binary64
arithmetic, called with `x` pointing at slot 0 of `buf`. -/
def SimulateNativeHardCoded (N : Int) (buf : List Dbl) : Option (List Dbl) :=
  simLoop N 1 0 buf

/-- The four slots of `b` starting at slot `x` (slots beyond the end of the list
read as NaN). -/
def readState (b : List Dbl) (x : Nat) : Fin 4 → Dbl := fun i => b.getD (x + i.val) Dbl.nan

/-- Writing four values into the four slots of `b` starting at `x`. -/
def write4 (b : List Dbl) (x : Nat) (v0 v1 v2 v3 : Dbl) : List Dbl :=
  (((b.set (x + 0) v0).set (x + 1) v1).set (x + 2) v2).set (x + 3) v3

end Binary64

/-! ## Lemmas -/

theorem loopBody_eq (x : Nat) (r : Run) (h : x + 8 ≤ r.mem.length) :
    loopBody x r = some (x + 4,
      ⟨write4 r.mem (x + 4) (updateRule (readState r.mem x)),
       r.trace ++ bodyAccesses x, r.iters⟩) := by
  have h0 : x < r.mem.length := by omega
  have h1 : x + 1 < r.mem.length := by omega
  have h2 : x + 2 < r.mem.length := by omega
  have h3 : x + 3 < r.mem.length := by omega
  have h4 : x + 4 < r.mem.length := by omega
  have h5 : x + 4 + 1 < r.mem.length := by omega
  have h6 : x + 4 + 2 < r.mem.length := by omega
  have h7 : x + 4 + 3 < r.mem.length := by omega
  simp [loopBody, Run.load, Run.store, h0, h1, h2, h3, h4, h5, h6, h7, write4, bodyAccesses,
    updateRule, delta, growth, A, scale, readState, Fin.sum_univ_four,
    show ((3 : Fin 4) : ℕ) = 3 from rfl]
  ring_nf

theorem write4_length (b : List ℚ) (x : Nat) (s : State) :
    (write4 b x s).length = b.length := by
  simp [write4]

theorem write4_getElem_outside (b : List ℚ) (x : Nat) (s : State) (j : Nat)
    (hj : j < x ∨ x + 4 ≤ j) : (write4 b x s)[j]? = b[j]? := by
  have e0 : x ≠ j := by omega
  have e1 : x + 1 ≠ j := by omega
  have e2 : x + 2 ≠ j := by omega
  have e3 : x + 3 ≠ j := by omega
  simp [write4, List.getElem?_set, e0, e1, e2, e3]

theorem readState_write4_same (b : List ℚ) (x : Nat) (s : State) (h : x + 4 ≤ b.length) :
    readState (write4 b x s) x = s := by
  funext i
  have h0 : x < b.length := by omega
  have h1 : x + 1 < b.length := by omega
  have h2 : x + 2 < b.length := by omega
  have h3 : x + 3 < b.length := by omega
  fin_cases i <;>
    simp [readState, write4, List.getD_eq_getElem?_getD, List.getElem?_set, h0, h1, h2, h3]

theorem readState_congr (b d : List ℚ) (x : Nat)
    (h : ∀ j, x ≤ j → j < x + 4 → d[j]? = b[j]?) : readState d x = readState b x := by
  funext i
  simp only [readState, List.getD_eq_getElem?_getD]
  rw [h (x + i.val) (by omega) (by omega)]

theorem fill_length : ∀ (k x : Nat) (b : List ℚ), (fill k x b).length = b.length
  | 0, _, _ => rfl
  | k + 1, x, b => by rw [fill, fill_length k, write4_length]

theorem fill_getElem_outside : ∀ (k x : Nat) (b : List ℚ) (j : Nat),
    j < x + 4 ∨ x + 4 * (k + 1) ≤ j → (fill k x b)[j]? = b[j]?
  | 0, _, _, _, _ => rfl
  | k + 1, x, b, j, hj => by
    rw [fill, fill_getElem_outside k (x + 4) _ j (by omega),
      write4_getElem_outside _ _ _ _ (by omega)]

theorem readState_fill : ∀ (k x : Nat) (b : List ℚ) (n : Nat),
    x + 4 * (k + 1) ≤ b.length → n ≤ k →
    readState (fill k x b) (x + 4 * n) = updateRule^[n] (readState b x)
  | 0, x, b, n, _, hn => by
    obtain rfl : n = 0 := by omega
    rfl
  | k + 1, x, b, 0, _, _ => by
    apply readState_congr
    intro j h1 h2
    exact fill_getElem_outside (k + 1) x b j (by omega)
  | k + 1, x, b, n + 1, hb, hn => by
    have e : x + 4 * (n + 1) = (x + 4) + 4 * n := by ring
    rw [fill, e, readState_fill k (x + 4) _ n (by rw [write4_length]; omega) (by omega),
      readState_write4_same _ _ _ (by omega), Function.iterate_succ_apply]

theorem simLoop_eq (N : Int) : ∀ (k : Nat) (n : Int) (x : Nat) (r : Run),
    (N - n).toNat = k → (k = 0 ∨ x + 4 * (k + 1) ≤ r.mem.length) →
    simLoop N n x r = some ⟨fill k x r.mem, r.trace ++ accesses k x, r.iters + k⟩
  | 0, n, x, r, hk, _ => by
    have hn : ¬ n < N := by omega
    rw [simLoop, if_neg hn]
    simp [fill, accesses]
  | k + 1, n, x, r, hk, hb => by
    have hn : n < N := by omega
    have hlen : x + 8 ≤ r.mem.length := by omega
    rw [simLoop, if_pos hn, loopBody_eq x r hlen]
    simp only []
    rw [simLoop_eq N k (n + 1) (x + 4) _ (by omega)
      (by right; simp only [write4_length]; omega)]
    simp only [fill, accesses, List.append_assoc, Nat.add_assoc, Nat.add_comm 1 k]

/-- Closed form of a call: with `N ≥ 1` and at least `4 * N` slots the call
succeeds, having run `N - 1` iterations from pointer 0. -/
theorem simulate_eq (N : Int) (buf : List ℚ) (hN : 1 ≤ N) (hb : 4 * N ≤ buf.length) :
    SimulateNativeHardCoded N buf =
      some ⟨fill (N - 1).toNat 0 buf, accesses (N - 1).toNat 0, (N - 1).toNat⟩ := by
  have h := simLoop_eq N (N - 1).toNat 1 0 (Run.start buf) rfl
    (by right; simp only [Run.start]; omega)
  simpa [SimulateNativeHardCoded, Run.start] using h

theorem getElem_of_readState (b : List ℚ) (x : Nat) (i : Fin 4) (h : x + 4 ≤ b.length) :
    b[x + i.val]? = some (readState b x i) := by
  have hi : x + i.val < b.length := by omega
  simp [readState, List.getD_eq_getElem?_getD, List.getElem?_eq_getElem hi]

/-- Every slot below `4 * (k + 1)` of the filled buffer holds the corresponding
component of an iterate of the update rule on State 0 of the input. -/
theorem fill_getElem_inside (k : Nat) (b : List ℚ) (j : Nat) (hb : 4 * (k + 1) ≤ b.length)
    (hj : j < 4 * (k + 1)) :
    (fill k 0 b)[j]? = some (updateRule^[j / 4] (readState b 0) ⟨j % 4, Nat.mod_lt j (by decide)⟩) := by
  have h1 := readState_fill k 0 b (j / 4) (by omega) (by omega)
  have h2 := getElem_of_readState (fill k 0 b) (0 + 4 * (j / 4)) ⟨j % 4, Nat.mod_lt j (by decide)⟩
    (by rw [fill_length]; omega)
  rw [h1] at h2
  have e : 0 + 4 * (j / 4) + j % 4 = j := by omega
  simpa only [e] using h2

theorem fill_idem (k : Nat) (b : List ℚ) (hb : 4 * (k + 1) ≤ b.length) :
    fill k 0 (fill k 0 b) = fill k 0 b := by
  apply List.ext_getElem?
  intro j
  by_cases hj : j < 4 * (k + 1)
  · rw [fill_getElem_inside k _ j (by rw [fill_length]; exact hb) hj, fill_getElem_inside k b j hb hj]
    have h0 := readState_fill k 0 b 0 (by omega) (by omega)
    simp only [Nat.mul_zero, Nat.add_zero, Function.iterate_zero, id_eq] at h0
    rw [h0]
  · rw [fill_getElem_outside k 0 _ j (by omega)]

theorem mem_bodyAccesses (x : Nat) (a : Access) :
    a ∈ bodyAccesses x ↔
      (∃ j, a = Access.read j ∧ x ≤ j ∧ j < x + 4) ∨
      (∃ j, a = Access.write j ∧ x + 4 ≤ j ∧ j < x + 8) := by
  constructor
  · intro h
    simp only [bodyAccesses, List.mem_cons, List.mem_singleton, List.not_mem_nil, or_false] at h
    rcases h with h | h | h | h | h | h | h | h <;> subst h
    · exact Or.inl ⟨_, rfl, by omega, by omega⟩
    · exact Or.inl ⟨_, rfl, by omega, by omega⟩
    · exact Or.inl ⟨_, rfl, by omega, by omega⟩
    · exact Or.inl ⟨_, rfl, by omega, by omega⟩
    · exact Or.inr ⟨_, rfl, by omega, by omega⟩
    · exact Or.inr ⟨_, rfl, by omega, by omega⟩
    · exact Or.inr ⟨_, rfl, by omega, by omega⟩
    · exact Or.inr ⟨_, rfl, by omega, by omega⟩
  · rintro (⟨j, rfl, h1, h2⟩ | ⟨j, rfl, h1, h2⟩)
    · have : j = x + 0 ∨ j = x + 1 ∨ j = x + 2 ∨ j = x + 3 := by omega
      rcases this with h | h | h | h <;> subst h <;> simp [bodyAccesses]
    · have : j = x + 4 + 0 ∨ j = x + 4 + 1 ∨ j = x + 4 + 2 ∨ j = x + 4 + 3 := by omega
      rcases this with h | h | h | h <;> subst h <;> simp [bodyAccesses]

/-- The slots read by `k` iterations from pointer `x` are `x .. x + 4k - 1`, the
slots written are `x + 4 .. x + 4k + 3`. -/
theorem mem_accesses : ∀ (k x : Nat) (a : Access),
    a ∈ accesses k x ↔
      (∃ j, a = Access.read j ∧ x ≤ j ∧ j < x + 4 * k) ∨
      (∃ j, a = Access.write j ∧ x + 4 ≤ j ∧ j < x + 4 * (k + 1))
  | 0, x, a => by
    simp only [accesses, List.not_mem_nil, false_iff, not_or, not_exists, not_and]
    constructor <;> intro j _ _ <;> omega
  | k + 1, x, a => by
    rw [accesses, List.mem_append, mem_bodyAccesses, mem_accesses k (x + 4) a]
    constructor
    · rintro ((⟨j, rfl, h1, h2⟩ | ⟨j, rfl, h1, h2⟩) | (⟨j, rfl, h1, h2⟩ | ⟨j, rfl, h1, h2⟩))
      · exact Or.inl ⟨j, rfl, by omega, by omega⟩
      · exact Or.inr ⟨j, rfl, by omega, by omega⟩
      · exact Or.inl ⟨j, rfl, by omega, by omega⟩
      · exact Or.inr ⟨j, rfl, by omega, by omega⟩
    · rintro (⟨j, rfl, h1, h2⟩ | ⟨j, rfl, h1, h2⟩)
      · by_cases hj : j < x + 4
        · exact Or.inl (Or.inl ⟨j, rfl, by omega, by omega⟩)
        · exact Or.inr (Or.inl ⟨j, rfl, by omega, by omega⟩)
      · by_cases hj : j < x + 8
        · exact Or.inl (Or.inr ⟨j, rfl, by omega, by omega⟩)
        · exact Or.inr (Or.inr ⟨j, rfl, by omega, by omega⟩)

/-- One or more successive calls leave the buffer of a single call. -/
theorem repeatLoop_eq (reps N : Int) (hN : 1 ≤ N) : ∀ (m : Nat) (i : Int) (data : List ℚ),
    (reps - i).toNat = m + 1 → 4 * N ≤ data.length →
    repeatLoop reps i N data = some (fill (N - 1).toNat 0 data)
  | 0, i, data, hm, hb => by
    have h1 : i < reps := by omega
    have h2 : ¬ (i + 1 < reps) := by omega
    rw [repeatLoop, if_pos h1, simulate_eq N data hN hb]
    simp only []
    rw [repeatLoop, if_neg h2]
  | m + 1, i, data, hm, hb => by
    have h1 : i < reps := by omega
    rw [repeatLoop, if_pos h1, simulate_eq N data hN hb]
    simp only []
    rw [repeatLoop_eq reps N hN m (i + 1) _ (by omega) (by rw [fill_length]; exact hb),
      fill_idem _ _ (by omega)]

theorem updateRule_zero (x : State) : updateRule x 0 =
    x 0 + (1.0 - (x 0 + 1.09 * x 1 + 1.52 * x 2)) * 0.001 * x 0 := by
  simp [updateRule, delta, growth, A, scale, Fin.sum_univ_four]

theorem updateRule_one (x : State) : updateRule x 1 =
    x 1 + (1.0 - (x 1 + 0.44 * x 2 + 1.36 * x 3)) * (0.001 * 0.72) * x 1 := by
  simp [updateRule, delta, growth, A, scale, Fin.sum_univ_four]

theorem updateRule_two (x : State) : updateRule x 2 =
    x 2 + (1.0 - (2.33 * x 0 + x 2 + 0.47 * x 3)) * (0.001 * 1.53) * x 2 := by
  simp [updateRule, delta, growth, A, scale, Fin.sum_univ_four]

theorem updateRule_three (x : State) : updateRule x 3 =
    x 3 + (1.0 - (1.21 * x 0 + 0.51 * x 1 + 0.35 * x 2 + x 3)) * (0.001 * 1.27) * x 3 := by
  simp [updateRule, delta, growth, A, scale, Fin.sum_univ_four]

/-- The unit box is mapped into itself by the update rule. -/
theorem updateRule_unitBox (x : State) (h : ∀ i, 0 ≤ x i ∧ x i ≤ 1) :
    ∀ i, 0 ≤ updateRule x i ∧ updateRule x i ≤ 1 := by
  obtain ⟨a0, b0⟩ := h 0
  obtain ⟨a1, b1⟩ := h 1
  obtain ⟨a2, b2⟩ := h 2
  obtain ⟨a3, b3⟩ := h 3
  have c0 := sub_nonneg.mpr b0
  have c1 := sub_nonneg.mpr b1
  have c2 := sub_nonneg.mpr b2
  have c3 := sub_nonneg.mpr b3
  have k0 : 0 ≤ updateRule x 0 ∧ updateRule x 0 ≤ 1 := by
    rw [updateRule_zero]
    norm_num
    constructor <;>
      nlinarith [mul_nonneg a0 a1, mul_nonneg a0 a2, mul_nonneg a0 a3, mul_nonneg a0 c0,
        mul_nonneg a0 c1, mul_nonneg a0 c2, mul_nonneg a0 c3]
  have k1 : 0 ≤ updateRule x 1 ∧ updateRule x 1 ≤ 1 := by
    rw [updateRule_one]
    norm_num
    constructor <;>
      nlinarith [mul_nonneg a1 a0, mul_nonneg a1 a2, mul_nonneg a1 a3, mul_nonneg a1 c0,
        mul_nonneg a1 c1, mul_nonneg a1 c2, mul_nonneg a1 c3]
  have k2 : 0 ≤ updateRule x 2 ∧ updateRule x 2 ≤ 1 := by
    rw [updateRule_two]
    norm_num
    constructor <;>
      nlinarith [mul_nonneg a2 a0, mul_nonneg a2 a1, mul_nonneg a2 a3, mul_nonneg a2 c0,
        mul_nonneg a2 c1, mul_nonneg a2 c2, mul_nonneg a2 c3]
  have k3 : 0 ≤ updateRule x 3 ∧ updateRule x 3 ≤ 1 := by
    rw [updateRule_three]
    norm_num
    constructor <;>
      nlinarith [mul_nonneg a3 a0, mul_nonneg a3 a1, mul_nonneg a3 a2, mul_nonneg a3 c0,
        mul_nonneg a3 c1, mul_nonneg a3 c2, mul_nonneg a3 c3]
  intro i
  fin_cases i
  exacts [k0, k1, k2, k3]

theorem iterate_unitBox (x : State) (h : ∀ i, 0 ≤ x i ∧ x i ≤ 1) :
    ∀ (n : Nat) (i : Fin 4), 0 ≤ updateRule^[n] x i ∧ updateRule^[n] x i ≤ 1
  | 0 => h
  | n + 1 => by
    rw [Function.iterate_succ_apply']
    exact updateRule_unitBox _ (iterate_unitBox x h n)

/-- State `n` of the buffer a call leaves is the `n`-th iterate of the update
rule on State 0 of the buffer it was given. -/
theorem stateAt_fill (k : Nat) (b : List ℚ) (n : Nat) (hb : 4 * (k + 1) ≤ b.length)
    (hn : n ≤ k) : stateAt (fill k 0 b) n = updateRule^[n] (stateAt b 0) := by
  have h := readState_fill k 0 b n (by omega) hn
  simpa [stateAt] using h

theorem initialState_unitBox : ∀ i, 0 ≤ initialState i ∧ initialState i ≤ 1 := by
  intro i
  fin_cases i <;> simp [initialState] <;> norm_num

theorem stateAt_sampleBuf : stateAt sampleBuf 0 = initialState := by
  funext i
  fin_cases i <;> rfl

theorem stateAt_sampleBufOther : stateAt sampleBufOther 0 = initialState := by
  funext i
  fin_cases i <;> rfl

theorem stateAt_sampleBuf5 : stateAt sampleBuf5 0 = initialState := by
  funext i
  fin_cases i <;> rfl

theorem stateAt_mainData (N : Nat) : stateAt (mainData N) 0 = initialState := by
  funext i
  fin_cases i <;> simp [stateAt, readState, mainData, initialState]

theorem length_mainData (N : Nat) (h : 1 ≤ N) : ((mainData N).length : Int) = 4 * N := by
  simp only [mainData, List.length_append, List.length_replicate, List.length_cons,
    List.length_nil]
  omega

theorem capacity_mainData : (4 : Int) * 100000 ≤ (mainData 100000).length := by
  rw [length_mainData 100000 (by decide)]
  norm_num

theorem stateAt_zero (b : List ℚ) : stateAt b 0 = readState b 0 := rfl

/-- A call on a buffer whose State 0 lies in the unit box leaves a buffer all of
whose States `0 .. N - 1` lie in the unit box. -/
theorem simulate_unitBox (N : Int) (buf : List ℚ) (hN : 1 ≤ N) (hb : 4 * N ≤ buf.length)
    (h0 : ∀ i, 0 ≤ stateAt buf 0 i ∧ stateAt buf 0 i ≤ 1) :
    ∃ r, SimulateNativeHardCoded N buf = some r ∧ r.mem.length = buf.length ∧
      ∀ n : Nat, (n : Int) < N → ∀ i : Fin 4,
        0 ≤ stateAt r.mem n i ∧ stateAt r.mem n i ≤ 1 := by
  refine ⟨_, simulate_eq N buf hN hb, fill_length _ _ _, ?_⟩
  intro n hn i
  have h1 : stateAt (fill (N - 1).toNat 0 buf) n = updateRule^[n] (stateAt buf 0) :=
    stateAt_fill _ buf n (by omega) (by omega)
  show 0 ≤ stateAt (fill (N - 1).toNat 0 buf) n i ∧ stateAt (fill (N - 1).toNat 0 buf) n i ≤ 1
  rw [h1]
  exact iterate_unitBox _ h0 n i

/-! ## Properties of the kernel -/

/-- C1: for every `N ≥ 1` and every buffer with at least `4 * N` slots the call
succeeds, keeps the length of the buffer, and for every index `n` with
`1 ≤ n < N`, State `n` of the resulting buffer equals the update rule applied
to State `n - 1` of the resulting buffer (all four components from that same
predecessor State). -/
theorem trajectory_postcondition (N : Int) (buf : List ℚ) (hN : 1 ≤ N)
    (hb : 4 * N ≤ buf.length) :
    ∃ r, SimulateNativeHardCoded N buf = some r ∧ r.mem.length = buf.length ∧
      ∀ n : Nat, 1 ≤ n → (n : Int) < N →
        stateAt r.mem n = updateRule (stateAt r.mem (n - 1)) := by
  refine ⟨_, simulate_eq N buf hN hb, fill_length _ _ _, ?_⟩
  intro n h1 h2
  obtain ⟨m, rfl⟩ : ∃ m, n = m + 1 := ⟨n - 1, by omega⟩
  have hlen : 4 * ((N - 1).toNat + 1) ≤ buf.length := by omega
  simp only [Nat.add_sub_cancel]
  rw [stateAt_fill _ buf (m + 1) hlen (by omega), stateAt_fill _ buf m hlen (by omega),
    Function.iterate_succ_apply']

theorem trajectory_postcondition_witness :
    ∃ r, SimulateNativeHardCoded 3 sampleBuf = some r ∧ r.mem.length = sampleBuf.length ∧
      ∀ n : Nat, 1 ≤ n → (n : Int) < 3 →
        stateAt r.mem n = updateRule (stateAt r.mem (n - 1)) :=
  trajectory_postcondition 3 sampleBuf (by decide) (by decide)

/-- C2: one execution of the loop body with the pointer at slot `x` (eight slots
available from `x`) succeeds, advances the pointer by 4, and the value it
writes for each species `i` into slot `x + 4 + i` is the spec's update rule
`x_i + (1 - Σ_j A[i][j] * x_j) * scale_i * x_i` applied to the State it read
from slots `x .. x + 3`. -/
theorem loopBody_refines_updateRule (x : Nat) (r : Run) (h : x + 8 ≤ r.mem.length) :
    ∃ r', loopBody x r = some (x + 4, r') ∧
      (∀ i : Fin 4, r.mem[x + i.val]? = some (readState r.mem x i)) ∧
      ∀ i : Fin 4, r'.mem[x + 4 + i.val]? =
        some (readState r.mem x i +
          (1.0 - ∑ j : Fin 4, A i j * readState r.mem x j) * scale i * readState r.mem x i) := by
  refine ⟨_, loopBody_eq x r h, ?_, ?_⟩
  · intro i
    exact getElem_of_readState r.mem x i (by omega)
  · intro i
    have h1 := getElem_of_readState (write4 r.mem (x + 4) (updateRule (readState r.mem x)))
      (x + 4) i (by rw [write4_length]; omega)
    rw [readState_write4_same _ _ _ (by omega)] at h1
    exact h1

theorem loopBody_refines_updateRule_witness :
    ∃ r', loopBody 0 (Run.start sampleBuf) = some (0 + 4, r') ∧
      (∀ i : Fin 4, (Run.start sampleBuf).mem[0 + i.val]? =
        some (readState (Run.start sampleBuf).mem 0 i)) ∧
      ∀ i : Fin 4, r'.mem[0 + 4 + i.val]? =
        some (readState (Run.start sampleBuf).mem 0 i +
          (1.0 - ∑ j : Fin 4, A i j * readState (Run.start sampleBuf).mem 0 j) * scale i *
            readState (Run.start sampleBuf).mem 0 i) :=
  loopBody_refines_updateRule 0 (Run.start sampleBuf) (by decide)

/-- C3: with State 0 = (0.2, 0.4586, 0.1307, 0.3557) and at least eight slots,
`SimulateNativeHardCoded(2, x)` succeeds and writes
(0.2000202924, 0.45860004622688, 0.130747217352491, 0.355755414371391) into
slots 4..7 (State 1); the growth terms of the four species at State 0 are
0.101462, 0.00014, 0.236121 and 0.122669. -/
theorem single_step_golden (buf : List ℚ) (hb : 8 ≤ buf.length)
    (h0 : stateAt buf 0 = initialState) :
    ∃ r, SimulateNativeHardCoded 2 buf = some r ∧
      r.mem[4]? = some (0.2000202924 : ℚ) ∧ r.mem[5]? = some (0.45860004622688 : ℚ) ∧
      r.mem[6]? = some (0.130747217352491 : ℚ) ∧ r.mem[7]? = some (0.355755414371391 : ℚ) ∧
      growth 0 initialState = 0.101462 ∧ growth 1 initialState = 0.00014 ∧
      growth 2 initialState = 0.236121 ∧ growth 3 initialState = 0.122669 := by
  have hs : SimulateNativeHardCoded 2 buf = some ⟨fill 1 0 buf, accesses 1 0, 1⟩ :=
    simulate_eq 2 buf (by decide) (by omega)
  have hr : readState buf 0 = initialState := h0
  have g4 := fill_getElem_inside 1 buf 4 (by omega) (by decide)
  have g5 := fill_getElem_inside 1 buf 5 (by omega) (by decide)
  have g6 := fill_getElem_inside 1 buf 6 (by omega) (by decide)
  have g7 := fill_getElem_inside 1 buf 7 (by omega) (by decide)
  rw [hr] at g4 g5 g6 g7
  refine ⟨_, hs, ?_, ?_, ?_, ?_, ?_, ?_, ?_, ?_⟩
  · show (fill 1 0 buf)[4]? = _
    rw [g4]
    show some (updateRule initialState 0) = _
    simp [updateRule_zero, initialState]
    norm_num
  · show (fill 1 0 buf)[5]? = _
    rw [g5]
    show some (updateRule initialState 1) = _
    simp [updateRule_one, initialState]
    norm_num
  · show (fill 1 0 buf)[6]? = _
    rw [g6]
    show some (updateRule initialState 2) = _
    simp [updateRule_two, initialState]
    norm_num
  · show (fill 1 0 buf)[7]? = _
    rw [g7]
    show some (updateRule initialState 3) = _
    simp [updateRule_three, initialState]
    norm_num
  · simp [growth, A, initialState, Fin.sum_univ_four]
    norm_num
  · simp [growth, A, initialState, Fin.sum_univ_four]
    norm_num
  · simp [growth, A, initialState, Fin.sum_univ_four]
    norm_num
  · simp [growth, A, initialState, Fin.sum_univ_four]
    norm_num

theorem single_step_golden_witness :
    ∃ r, SimulateNativeHardCoded 2 sampleBuf = some r ∧
      r.mem[4]? = some (0.2000202924 : ℚ) ∧ r.mem[5]? = some (0.45860004622688 : ℚ) ∧
      r.mem[6]? = some (0.130747217352491 : ℚ) ∧ r.mem[7]? = some (0.355755414371391 : ℚ) ∧
      growth 0 initialState = 0.101462 ∧ growth 1 initialState = 0.00014 ∧
      growth 2 initialState = 0.236121 ∧ growth 3 initialState = 0.122669 :=
  single_step_golden sampleBuf (by decide) stateAt_sampleBuf

/-- C4: for every `N ≥ 1` and any two buffers with at least `4 * N` slots each
and the same State 0, both calls succeed and the resulting buffers agree on
every slot below `4 * N` (States 0..N-1), whatever the buffers held in
States 1..N-1 before the call. -/
theorem deterministic_in_initial_state (N : Int) (b1 b2 : List ℚ) (hN : 1 ≤ N)
    (h1 : 4 * N ≤ b1.length) (h2 : 4 * N ≤ b2.length) (h0 : stateAt b1 0 = stateAt b2 0) :
    ∃ r1 r2, SimulateNativeHardCoded N b1 = some r1 ∧ SimulateNativeHardCoded N b2 = some r2 ∧
      ∀ j : Nat, (j : Int) < 4 * N → r1.mem[j]? = r2.mem[j]? := by
  refine ⟨_, _, simulate_eq N b1 hN h1, simulate_eq N b2 hN h2, ?_⟩
  intro j hj
  show (fill _ 0 b1)[j]? = (fill _ 0 b2)[j]?
  rw [fill_getElem_inside _ b1 j (by omega) (by omega), fill_getElem_inside _ b2 j (by omega) (by omega),
    ← stateAt_zero b1, ← stateAt_zero b2, h0]

theorem deterministic_in_initial_state_witness :
    ∃ r1 r2, SimulateNativeHardCoded 3 sampleBuf = some r1 ∧
      SimulateNativeHardCoded 3 sampleBufOther = some r2 ∧
      ∀ j : Nat, (j : Int) < 4 * 3 → r1.mem[j]? = r2.mem[j]? :=
  deterministic_in_initial_state 3 sampleBuf sampleBufOther (by decide) (by decide) (by decide)
    (stateAt_sampleBuf.trans stateAt_sampleBufOther.symm)

/-- C5: for every `N ≥ 1` and every buffer with at least `4 * N` slots, the call
succeeds, a second call on the buffer it produced succeeds and leaves that
buffer unchanged, and the harness loop making `k ≥ 1` successive calls (`main`
has `k = 100`, `N = 100000`) ends with the buffer of a single call, hence with
the same final State and the same slot `(N - 1) * 4 + 3`. -/
theorem repetition_idempotent (N : Int) (buf : List ℚ) (hN : 1 ≤ N)
    (hb : 4 * N ≤ buf.length) :
    ∃ r, SimulateNativeHardCoded N buf = some r ∧
      Option.map Run.mem (SimulateNativeHardCoded N r.mem) = some r.mem ∧
      ∀ k : Int, 1 ≤ k → repeatLoop k 0 N buf = some r.mem := by
  refine ⟨_, simulate_eq N buf hN hb, ?_, ?_⟩
  · show Option.map Run.mem (SimulateNativeHardCoded N (fill _ 0 buf)) = some (fill _ 0 buf)
    rw [simulate_eq N _ hN (by rw [fill_length]; exact hb)]
    show some (fill _ 0 (fill _ 0 buf)) = _
    rw [fill_idem _ _ (by omega)]
  · intro k hk
    exact repeatLoop_eq k N hN (k - 1).toNat 0 buf (by omega) hb

theorem repetition_idempotent_witness :
    ∃ r, SimulateNativeHardCoded 100000 (mainData 100000) = some r ∧
      Option.map Run.mem (SimulateNativeHardCoded 100000 r.mem) = some r.mem ∧
      ∀ k : Int, 1 ≤ k → repeatLoop k 0 100000 (mainData 100000) = some r.mem :=
  repetition_idempotent 100000 (mainData 100000) (by decide) capacity_mainData

/-- C6: for every buffer (of any length), `SimulateNativeHardCoded(1, x)`
succeeds with the buffer it was given, having made no access (no read, no
write) and executed no loop iteration. -/
theorem stepCount_one_noop (buf : List ℚ) :
    SimulateNativeHardCoded 1 buf = some ⟨buf, [], 0⟩ := by
  have h := simLoop_eq 1 0 1 0 (Run.start buf) rfl (Or.inl rfl)
  simpa [SimulateNativeHardCoded, Run.start, fill, accesses] using h

/-- C7: for every `N ≥ 1` and every buffer with at least `4 * N` slots, the call
succeeds, leaves slots 0..3 (State 0) unchanged, leaves every slot with index
`≥ 4 * N` unchanged, and the slots it writes are exactly those with index in
`4 .. 4 * N - 1`. -/
theorem frame_of_call (N : Int) (buf : List ℚ) (hN : 1 ≤ N) (hb : 4 * N ≤ buf.length) :
    ∃ r, SimulateNativeHardCoded N buf = some r ∧
      (∀ j : Nat, j < 4 → r.mem[j]? = buf[j]?) ∧
      (∀ j : Nat, 4 * N ≤ (j : Int) → r.mem[j]? = buf[j]?) ∧
      (∀ j : Nat, Access.write j ∈ r.trace ↔ 4 ≤ j ∧ (j : Int) < 4 * N) := by
  refine ⟨_, simulate_eq N buf hN hb, ?_, ?_, ?_⟩
  · intro j hj
    exact fill_getElem_outside _ 0 buf j (by omega)
  · intro j hj
    exact fill_getElem_outside _ 0 buf j (by omega)
  · intro j
    show Access.write j ∈ accesses (N - 1).toNat 0 ↔ _
    rw [mem_accesses]
    constructor
    · rintro (⟨i, h, _, _⟩ | ⟨i, h, h1, h2⟩)
      · exact absurd h (by simp)
      · obtain rfl : j = i := by simpa using h
        exact ⟨by omega, by omega⟩
    · rintro ⟨h1, h2⟩
      exact Or.inr ⟨j, rfl, by omega, by omega⟩

theorem frame_of_call_witness :
    ∃ r, SimulateNativeHardCoded 3 sampleBuf = some r ∧
      (∀ j : Nat, j < 4 → r.mem[j]? = sampleBuf[j]?) ∧
      (∀ j : Nat, 4 * 3 ≤ (j : Int) → r.mem[j]? = sampleBuf[j]?) ∧
      (∀ j : Nat, Access.write j ∈ r.trace ↔ 4 ≤ j ∧ (j : Int) < 4 * 3) :=
  frame_of_call 3 sampleBuf (by decide) (by decide)

/-- C8: for every `N ≥ 1` and every buffer with at least `4 * N` slots, the call
does not fail (no checked access is out of range), every slot it reads or
writes has an index at most `4 * (N - 1) + 3`, hence below `4 * N` and inside
the buffer, and when the loop runs at all (`N ≥ 2`) slot `4 * (N - 1) + 3` is
written. -/
theorem index_safety (N : Int) (buf : List ℚ) (hN : 1 ≤ N) (hb : 4 * N ≤ buf.length) :
    ∃ r, SimulateNativeHardCoded N buf = some r ∧
      (∀ a ∈ r.trace, (a.index : Int) ≤ 4 * (N - 1) + 3 ∧ (a.index : Int) < 4 * N ∧
        a.index < buf.length) ∧
      (2 ≤ N → Access.write (4 * (N - 1) + 3).toNat ∈ r.trace) := by
  refine ⟨_, simulate_eq N buf hN hb, ?_, ?_⟩
  · intro a ha
    have ha' : a ∈ accesses (N - 1).toNat 0 := ha
    rw [mem_accesses] at ha'
    rcases ha' with ⟨j, rfl, h1, h2⟩ | ⟨j, rfl, h1, h2⟩
    · simp only [Access.index]
      omega
    · simp only [Access.index]
      omega
  · intro h2
    show Access.write (4 * (N - 1) + 3).toNat ∈ accesses (N - 1).toNat 0
    rw [mem_accesses]
    exact Or.inr ⟨_, rfl, by omega, by omega⟩

theorem index_safety_witness :
    ∃ r, SimulateNativeHardCoded 3 sampleBuf = some r ∧
      (∀ a ∈ r.trace, (a.index : Int) ≤ 4 * (3 - 1) + 3 ∧ (a.index : Int) < 4 * 3 ∧
        a.index < sampleBuf.length) ∧
      ((2 : Int) ≤ 3 → Access.write (4 * (3 - 1) + 3 : Int).toNat ∈ r.trace) :=
  index_safety 3 sampleBuf (by decide) (by decide)

/-- C9: starting from State 0 = (0.2, 0.4586, 0.1307, 0.3557) with at least 20
slots, `SimulateNativeHardCoded(5, x)` succeeds and at least one of its States
1..4 differs from the corresponding State of the trajectory produced by the
in-place sequential variant of the update. -/
theorem simultaneity (buf : List ℚ) (hb : 20 ≤ buf.length)
    (h0 : stateAt buf 0 = initialState) :
    ∃ r, SimulateNativeHardCoded 5 buf = some r ∧
      ∃ n : Nat, 1 ≤ n ∧ n < 5 ∧ stateAt r.mem n ≠ inPlaceSequential^[n] initialState := by
  refine ⟨_, simulate_eq 5 buf (by decide) (by omega), 1, le_refl 1, by decide, ?_⟩
  have h1 : stateAt (fill 4 0 buf) 1 = updateRule^[1] (stateAt buf 0) :=
    stateAt_fill 4 buf 1 (by omega) (by decide)
  show stateAt (fill 4 0 buf) 1 ≠ inPlaceSequential initialState
  rw [h1, h0]
  intro h
  have h2 := congrFun h 2
  simp [inPlaceSequential, updateInPlace, updateRule_two, updateRule_zero, initialState] at h2
  norm_num at h2

theorem simultaneity_witness :
    ∃ r, SimulateNativeHardCoded 5 sampleBuf5 = some r ∧
      ∃ n : Nat, 1 ≤ n ∧ n < 5 ∧ stateAt r.mem n ≠ inPlaceSequential^[n] initialState :=
  simultaneity sampleBuf5 (by decide) stateAt_sampleBuf5

/-- C10: with State 0 = (0.2, 0.4586, 0.1307, 0.3557) and at least `4 * 100000`
slots, `SimulateNativeHardCoded(100000, x)` succeeds and every component of
every State `n`, `0 ≤ n < 100000`, of the buffer it leaves lies in
`[-10, 10]`. -/
theorem reference_run_bounded (buf : List ℚ) (hb : (4 : Int) * 100000 ≤ buf.length)
    (h0 : stateAt buf 0 = initialState) :
    ∃ r, SimulateNativeHardCoded 100000 buf = some r ∧ r.mem.length = buf.length ∧
      ∀ n : Nat, (n : Int) < 100000 → ∀ i : Fin 4,
        -10 ≤ stateAt r.mem n i ∧ stateAt r.mem n i ≤ 10 := by
  have hbox : ∀ i, 0 ≤ stateAt buf 0 i ∧ stateAt buf 0 i ≤ 1 := by
    rw [h0]
    exact initialState_unitBox
  obtain ⟨r, hr, hlen, hall⟩ := simulate_unitBox 100000 buf (by decide) hb hbox
  refine ⟨r, hr, hlen, ?_⟩
  intro n hn i
  have h2 := hall n hn i
  constructor <;> linarith [h2.1, h2.2]

theorem reference_run_bounded_witness :
    ∃ r, SimulateNativeHardCoded 100000 (mainData 100000) = some r ∧
      r.mem.length = (mainData 100000).length ∧
      ∀ n : Nat, (n : Int) < 100000 → ∀ i : Fin 4,
        -10 ≤ stateAt r.mem n i ∧ stateAt r.mem n i ≤ 10 :=
  reference_run_bounded (mainData 100000) capacity_mainData (stateAt_mainData 100000)

/-! ## Further lemmas -/

/-- Closed form of a call for every step count: with `N ≤ 1`, or with at least
`4 * N` slots, the call succeeds after `(N - 1).toNat` iterations. -/
theorem simulate_eq_general (N : Int) (buf : List ℚ) (hb : N ≤ 1 ∨ 4 * N ≤ buf.length) :
    SimulateNativeHardCoded N buf =
      some ⟨fill (N - 1).toNat 0 buf, accesses (N - 1).toNat 0, (N - 1).toNat⟩ := by
  have h := simLoop_eq N (N - 1).toNat 1 0 (Run.start buf) rfl
    (by simp only [Run.start]; omega)
  simpa [SimulateNativeHardCoded, Run.start] using h

theorem simulate_of_le_one (N : Int) (buf : List ℚ) (hN : N ≤ 1) :
    SimulateNativeHardCoded N buf = some ⟨buf, [], 0⟩ := by
  have h0 : (N - 1).toNat = 0 := by omega
  rw [simulate_eq_general N buf (Or.inl hN), h0]
  rfl

theorem updateRule_extinct (x : State) (i : Fin 4) (h : x i = 0) : updateRule x i = 0 := by
  simp [updateRule, delta, h]

theorem iterate_extinct (x : State) (i : Fin 4) (h : x i = 0) :
    ∀ n : Nat, updateRule^[n] x i = 0
  | 0 => h
  | n + 1 => by
    rw [Function.iterate_succ_apply']
    exact updateRule_extinct _ i (iterate_extinct x i h n)

/-! ## Further properties of the kernel -/

/-- C11: when the State in slots `x .. x + 3` lies in the unit box, one execution
of the loop body (eight slots available from `x`) succeeds and the State it
writes into slots `x + 4 .. x + 7` lies in the unit box; hence for every `N`
and every buffer with at least `4 * N` slots whose State 0 lies in the unit
box, the call succeeds and every State `n`, `0 ≤ n < N`, of the buffer it
leaves lies in the unit box. -/
theorem unitBox_forward_invariant (x : Nat) (r : Run) (hx : x + 8 ≤ r.mem.length)
    (hbox : ∀ i, 0 ≤ readState r.mem x i ∧ readState r.mem x i ≤ 1) :
    (∃ r', loopBody x r = some (x + 4, r') ∧
      ∀ i, 0 ≤ readState r'.mem (x + 4) i ∧ readState r'.mem (x + 4) i ≤ 1) ∧
    (∀ (N : Int) (buf : List ℚ), 4 * N ≤ buf.length →
      (∀ i, 0 ≤ stateAt buf 0 i ∧ stateAt buf 0 i ≤ 1) →
      ∃ r', SimulateNativeHardCoded N buf = some r' ∧
        ∀ n : Nat, (n : Int) < N → ∀ i : Fin 4,
          0 ≤ stateAt r'.mem n i ∧ stateAt r'.mem n i ≤ 1) := by
  constructor
  · refine ⟨_, loopBody_eq x r hx, ?_⟩
    show ∀ i, 0 ≤ readState (write4 r.mem (x + 4) (updateRule (readState r.mem x))) (x + 4) i ∧
      readState (write4 r.mem (x + 4) (updateRule (readState r.mem x))) (x + 4) i ≤ 1
    rw [readState_write4_same _ _ _ (by omega)]
    exact updateRule_unitBox _ hbox
  · intro N buf hb h0
    by_cases hN : 1 ≤ N
    · obtain ⟨r', hr, _, hall⟩ := simulate_unitBox N buf hN hb h0
      exact ⟨r', hr, hall⟩
    · refine ⟨_, simulate_of_le_one N buf (by omega), ?_⟩
      intro n hn
      omega

theorem unitBox_forward_invariant_witness :
    (∃ r', loopBody 0 (Run.start sampleBuf) = some (0 + 4, r') ∧
      ∀ i, 0 ≤ readState r'.mem (0 + 4) i ∧ readState r'.mem (0 + 4) i ≤ 1) ∧
    (∃ r', SimulateNativeHardCoded 3 sampleBuf = some r' ∧
        ∀ n : Nat, (n : Int) < 3 → ∀ i : Fin 4,
          0 ≤ stateAt r'.mem n i ∧ stateAt r'.mem n i ≤ 1) :=
  have hbox : ∀ i, 0 ≤ stateAt sampleBuf 0 i ∧ stateAt sampleBuf 0 i ≤ 1 := by
    rw [stateAt_sampleBuf]
    exact initialState_unitBox
  have h := unitBox_forward_invariant 0 (Run.start sampleBuf) (by decide) hbox
  ⟨h.1, h.2 3 sampleBuf (by decide) hbox⟩

/-- C12: for all `1 ≤ M ≤ N` and every buffer with at least `4 * N` slots, the
calls with step counts `M` and `N` both succeed and the buffers they leave
agree on every slot below `4 * M` (States 0..M-1). -/
theorem prefix_consistency (M N : Int) (buf : List ℚ) (hM : 1 ≤ M) (hMN : M ≤ N)
    (hb : 4 * N ≤ buf.length) :
    ∃ rM rN, SimulateNativeHardCoded M buf = some rM ∧
      SimulateNativeHardCoded N buf = some rN ∧
      ∀ j : Nat, (j : Int) < 4 * M → rM.mem[j]? = rN.mem[j]? := by
  refine ⟨_, _, simulate_eq M buf hM (by omega), simulate_eq N buf (by omega) hb, ?_⟩
  intro j hj
  show (fill _ 0 buf)[j]? = (fill _ 0 buf)[j]?
  rw [fill_getElem_inside _ buf j (by omega) (by omega),
    fill_getElem_inside _ buf j (by omega) (by omega)]

theorem prefix_consistency_witness :
    ∃ rM rN, SimulateNativeHardCoded 2 sampleBuf = some rM ∧
      SimulateNativeHardCoded 3 sampleBuf = some rN ∧
      ∀ j : Nat, (j : Int) < 4 * 2 → rM.mem[j]? = rN.mem[j]? :=
  prefix_consistency 2 3 sampleBuf (by decide) (by decide) (by decide)

/-- In exact rational arithmetic (no rounding, no overflow, no NaN): for every
`N ≥ 1`, every species `i` and every buffer with at least `4 * N` slots whose
State 0 has component `i` equal to 0, the call succeeds and component `i` of
every State `n`, `0 ≤ n < N`, of the buffer it leaves is 0; in particular when
State 0 is all zero, every such State is all zero. The binary64 kernel behaves
differently on overflow. -/
theorem extinct_species_stay_extinct (N : Int) (i : Fin 4) (buf : List ℚ) (hN : 1 ≤ N)
    (hb : 4 * N ≤ buf.length) (h0 : stateAt buf 0 i = 0) :
    ∃ r, SimulateNativeHardCoded N buf = some r ∧
      (∀ n : Nat, (n : Int) < N → stateAt r.mem n i = 0) ∧
      ((∀ j, stateAt buf 0 j = 0) → ∀ n : Nat, (n : Int) < N → ∀ j, stateAt r.mem n j = 0) := by
  have key : ∀ (j : Fin 4), stateAt buf 0 j = 0 → ∀ n : Nat, (n : Int) < N →
      stateAt (fill (N - 1).toNat 0 buf) n j = 0 := by
    intro j hj n hn
    rw [stateAt_fill _ buf n (by omega) (by omega)]
    exact iterate_extinct _ j hj n
  refine ⟨_, simulate_eq N buf hN hb, ?_, ?_⟩
  · exact key i h0
  · intro hall n hn j
    exact key j (hall j) n hn

theorem extinct_species_stay_extinct_witness :
    ∃ r, SimulateNativeHardCoded 3 sampleBufExtinct = some r ∧
      (∀ n : Nat, (n : Int) < 3 → stateAt r.mem n 1 = 0) ∧
      ((∀ j, stateAt sampleBufExtinct 0 j = 0) →
        ∀ n : Nat, (n : Int) < 3 → ∀ j, stateAt r.mem n j = 0) :=
  extinct_species_stay_extinct 3 1 sampleBufExtinct (by decide) (by decide) rfl

/-- C14: for every integer `N` (also `N ≤ 0`) and every buffer that has at least
`4 * N` slots or is called with `N ≤ 1`, the call returns after exactly
`max (N - 1) 0` loop iterations; for every `N ≤ 1` it makes no access (no read,
no write) and leaves the buffer as it was. -/
theorem total_in_step_count (N : Int) (buf : List ℚ) (hb : N ≤ 1 ∨ 4 * N ≤ buf.length) :
    ∃ r, SimulateNativeHardCoded N buf = some r ∧ (r.iters : Int) = max (N - 1) 0 ∧
      (N ≤ 1 → r.trace = [] ∧ r.mem = buf) := by
  refine ⟨_, simulate_eq_general N buf hb, ?_, ?_⟩
  · show (((N - 1).toNat : Nat) : Int) = max (N - 1) 0
    omega
  · intro hN
    have h0 : (N - 1).toNat = 0 := by omega
    show accesses (N - 1).toNat 0 = [] ∧ fill (N - 1).toNat 0 buf = buf
    rw [h0]
    exact ⟨rfl, rfl⟩

theorem total_in_step_count_witness :
    ∃ r, SimulateNativeHardCoded (-3) sampleBuf = some r ∧ (r.iters : Int) = max (-3 - 1) 0 ∧
      ((-3 : Int) ≤ 1 → r.trace = [] ∧ r.mem = sampleBuf) :=
  total_in_step_count (-3) sampleBuf (Or.inl (by decide))

/-! ## Lemmas on the binary64 kernel -/

namespace Binary64

end Binary64

end LotkaVolterraCpp
